import Mathlib

/-!
Shallow embedding of the answer-grading core of the LearningTelegramBot
repository (`knowledge_test.py`, `stats_manager.py`).

Modelling conventions:
* Python `str` values are `List Char`.  `str.lower()` is modelled on the
  ASCII and Cyrillic alphabets that occur in this repository's data;
  `str.isdigit()` is modelled on the ASCII digits.
* Python `float` scores are modelled as exact rationals (`ℚ`); every score
  produced by the code is a small-denominator rational, and the thresholds
  0.6 / 0.7 / 0.8 are the rationals 3/5, 7/10, 4/5.
* `difflib.SequenceMatcher(None, a, b).ratio()` (the engine behind
  `_calculate_similarity`) is embedded in full, including the `autojunk`
  purge of popular elements, the junk-free dynamic-programming scan of
  `find_longest_match` with its tie-breaking, the four extension loops, and
  the recursive block decomposition of `get_matching_blocks`.  Loops are
  written with an explicit fuel argument so that every function is
  structurally recursive and kernel-computable; each call site passes fuel
  that dominates the loop's iteration count, so the fueled function agrees
  with the unbounded Python loop.
* Python dicts are modelled as insertion-ordered association lists (the
  dict used as `j2len` in `find_longest_match`, whose only operation is
  `get` with default 0, is modelled as a total function `Nat → Nat`).
-/

namespace LTBot

/-! ### Python string primitives -/

/-- Python `str.lower()` restricted to the alphabets used by the repository:
ASCII `A`–`Z` and Cyrillic `А`–`Я` map down by 32 code points, `Ё` maps to
`ё`; all other characters are fixed. -/
def pyCharLower (c : Char) : Char :=
  if 'A' ≤ c ∧ c ≤ 'Z' then Char.ofNat (c.toNat + 32)
  else if 'А' ≤ c ∧ c ≤ 'Я' then Char.ofNat (c.toNat + 32)
  else if c = 'Ё' then 'ё'
  else c

def pyLower (s : List Char) : List Char := s.map pyCharLower

/-- Whitespace for `str.strip()` / `str.split()` (the ASCII whitespace
class: space, tab, newline, carriage return, vertical tab, form feed). -/
def pyIsSpace (c : Char) : Bool :=
  c == ' ' || c == '\t' || c == '\n' || c == '\r' || c.toNat == 11 || c.toNat == 12

/-- Python `str.strip()`: drop whitespace from both ends. -/
def pyStrip (s : List Char) : List Char :=
  ((s.dropWhile pyIsSpace).reverse.dropWhile pyIsSpace).reverse

/-- Python `str.split()` with no argument: split on whitespace runs,
producing no empty words. -/
def pySplitWS : List Char → List (List Char)
  | [] => []
  | c :: rest =>
    if pyIsSpace c then pySplitWS rest
    else
      match rest, pySplitWS rest with
      | d :: _, w :: ws => if pyIsSpace d then [c] :: w :: ws else (c :: w) :: ws
      | _, _ => [[c]]

/-- Python `str.split(sep)` for a one-character separator: keeps empty
pieces, so the result always has one more piece than separator
occurrences. -/
def pySplitOn (sep : Char) : List Char → List (List Char)
  | [] => [[]]
  | c :: rest =>
    if c = sep then [] :: pySplitOn sep rest
    else
      match pySplitOn sep rest with
      | [] => [[c]]
      | w :: ws => (c :: w) :: ws

/-- Python `str.isdigit()` restricted to ASCII digits: non-empty and all
characters are `0`–`9`. -/
def pyIsDigit (s : List Char) : Bool :=
  !s.isEmpty && s.all Char.isDigit

/-- Numeric value of an ASCII digit string. -/
def digitsToNat (s : List Char) : Nat :=
  s.foldl (fun a c => a * 10 + (c.toNat - 48)) 0

/-- Digit-and-underscore tail of CPython `int()` parsing: a digit, then
digits with single underscores allowed between digits. -/
def pyIntCore : List Char → Option Nat
  | [] => none
  | c :: rest =>
    if c.isDigit then pyIntGo (c.toNat - 48) rest else none
where
  pyIntGo (acc : Nat) : List Char → Option Nat
    | [] => some acc
    | '_' :: d :: rest =>
      if d.isDigit then pyIntGo (acc * 10 + (d.toNat - 48)) rest else none
    | d :: rest =>
      if d.isDigit then pyIntGo (acc * 10 + (d.toNat - 48)) rest else none

/-- CPython `int(str)` on the decimal fragment: surrounding whitespace is
ignored, an optional sign, then digits with underscore separators.
`none` models a raised `ValueError`. -/
def pyInt (s : List Char) : Option Int :=
  match pyStrip s with
  | '+' :: rest => (pyIntCore rest).map Int.ofNat
  | '-' :: rest => (pyIntCore rest).map (fun n => -(n : Int))
  | rest => (pyIntCore rest).map Int.ofNat

/-- `x, y = map(int, parts)`: succeeds only when there are exactly two
pieces and both parse; every failure raises (and is caught by the caller in
`_check_date_answer`), which is modelled as `none`. -/
def mapIntPair (parts : List (List Char)) : Option (Int × Int) :=
  match parts with
  | [x, y] =>
    match pyInt x, pyInt y with
    | some a, some b => some (a, b)
    | _, _ => none
  | _ => none

/-- Python substring test `needle in hay`. -/
def isSubstring : List Char → List Char → Bool
  | needle, [] => needle.isEmpty
  | needle, c :: rest => needle.isPrefixOf (c :: rest) || isSubstring needle rest

/-! ### `difflib.SequenceMatcher` (isjunk=None, autojunk=True)

`_calculate_similarity` delegates to
`SequenceMatcher(None, str1, str2).ratio()`; the full stdlib algorithm is
embedded below. -/

/-- Number of occurrences of `c` in `b` (length of the `b2j` index list
before the autojunk purge). -/
def countC (b : List Char) (c : Char) : Nat :=
  (b.filter (· == c)).length

/-- The autojunk rule of `SequenceMatcher.__chain_b`: for `len(b) >= 200`,
elements occurring more than `len(b) // 100 + 1` times are "popular" and
are purged from `b2j`. -/
def isPopular (b : List Char) (c : Char) : Bool :=
  decide (200 ≤ b.length) && decide (b.length / 100 + 1 < countC b c)

/-- `b2j[c]`: ascending list of the positions of `c` in `b`, empty for
popular (purged) elements.  With `isjunk=None` the junk set `bjunk` is
empty, so no further purge happens. -/
def b2j (b : List Char) (c : Char) : List Nat :=
  if isPopular b c then []
  else (List.range b.length).filter (fun j => b.getD j ' ' == c)

/-- `self.bjunk.__contains__` for `isjunk=None`: always false. -/
def isBJunk (_ : Char) : Bool := false

/-- A candidate longest match `(besti, bestj, bestsize)`. -/
structure FlmRes where
  i : Nat
  j : Nat
  size : Nat
deriving DecidableEq

/-- The inner loop of `find_longest_match` over one row `i`: scan the
ascending position list `b2j[a[i]]`, skipping `j < blo` (`continue`) and
stopping at `j ≥ bhi` (`break`; sound because the list is ascending).
`prev` is the previous row's `j2len` dict (a total function, absent keys
giving 0), `acc` the new row's dict being built, and `best` is updated
whenever a strictly longer candidate appears. -/
def rowScan (i blo bhi : Nat) (prev : Nat → Nat) :
    List Nat → (Nat → Nat) → FlmRes → (Nat → Nat) × FlmRes
  | [], acc, best => (acc, best)
  | j :: js, acc, best =>
    if j < blo then rowScan i blo bhi prev js acc best
    else if bhi ≤ j then (acc, best)
    else
      let k := (if j = 0 then 0 else prev (j - 1)) + 1
      let acc' := fun x => if x = j then k else acc x
      let best' : FlmRes := if best.size < k then ⟨i + 1 - k, j + 1 - k, k⟩ else best
      rowScan i blo bhi prev js acc' best'

/-- The row loop `for i in range(alo, ahi)` of `find_longest_match`,
with fuel `ahi - i` so that rows `i, i+1, …, ahi-1` are processed. -/
def dpRows (a b : List Char) (blo bhi : Nat) :
    Nat → Nat → (Nat → Nat) → FlmRes → FlmRes
  | 0, _, _, best => best
  | fuel + 1, i, prev, best =>
    let pr := rowScan i blo bhi prev (b2j b (a.getD i ' ')) (fun _ => 0) best
    dpRows a b blo bhi fuel (i + 1) pr.1 pr.2

/-- One of the two left extension loops of `find_longest_match`: extend the
best block to the left while the guard characters are equal and satisfy
the junk predicate `p`.  Fuel `m.i` dominates the iteration count, since
each step decrements `besti` and the guard needs `alo < besti`. -/
def extLeft (a b : List Char) (p : Char → Bool) (alo blo : Nat) :
    Nat → FlmRes → FlmRes
  | 0, m => m
  | fuel + 1, m =>
    if alo < m.i ∧ blo < m.j ∧ p (b.getD (m.j - 1) ' ') = true ∧
        a.getD (m.i - 1) ' ' = b.getD (m.j - 1) ' ' then
      extLeft a b p alo blo fuel ⟨m.i - 1, m.j - 1, m.size + 1⟩
    else m

/-- One of the two right extension loops of `find_longest_match`: extend
the best block to the right under predicate `p`.  Fuel `ahi` dominates the
iteration count, since each step grows `besti + bestsize < ahi`. -/
def extRight (a b : List Char) (p : Char → Bool) (ahi bhi : Nat) :
    Nat → FlmRes → FlmRes
  | 0, m => m
  | fuel + 1, m =>
    if m.i + m.size < ahi ∧ m.j + m.size < bhi ∧
        p (b.getD (m.j + m.size) ' ') = true ∧
        a.getD (m.i + m.size) ' ' = b.getD (m.j + m.size) ' ' then
      extRight a b p ahi bhi fuel ⟨m.i, m.j, m.size + 1⟩
    else m

/-- `find_longest_match(alo, ahi, blo, bhi)`: the dynamic-programming scan
followed by the four extension loops (first through non-junk characters,
then through junk; with `isjunk=None` the junk loops are vacuous but are
kept for faithfulness). -/
def findLongestMatch (a b : List Char) (alo ahi blo bhi : Nat) : FlmRes :=
  let m0 := dpRows a b blo bhi (ahi - alo) alo (fun _ => 0) ⟨alo, blo, 0⟩
  let m1 := extLeft a b (fun c => !isBJunk c) alo blo m0.i m0
  let m2 := extRight a b (fun c => !isBJunk c) ahi bhi ahi m1
  let m3 := extLeft a b isBJunk alo blo m2.i m2
  extRight a b isBJunk ahi bhi ahi m3

/-- Total length of matched blocks: the recursive decomposition of
`get_matching_blocks` (its queue order, final sort and merging of adjacent
blocks do not change the sum of the block sizes).  Each recursive call
strictly shrinks `(ahi - alo) + (bhi - blo)`, so fuel `la + lb + 1` at the
top level dominates the recursion depth. -/
def mbSum (a b : List Char) : Nat → Nat → Nat → Nat → Nat → Nat
  | 0, _, _, _, _ => 0
  | fuel + 1, alo, ahi, blo, bhi =>
    let m := findLongestMatch a b alo ahi blo bhi
    if m.size = 0 then 0
    else
      m.size
        + (if alo < m.i ∧ blo < m.j then mbSum a b fuel alo m.i blo m.j else 0)
        + (if m.i + m.size < ahi ∧ m.j + m.size < bhi then
            mbSum a b fuel (m.i + m.size) ahi (m.j + m.size) bhi
          else 0)

/-- `SequenceMatcher(None, a, b).ratio()` as an exact rational:
`2*M/T` with `M` the total matched length and `T = len(a) + len(b)`;
`difflib._calculate_ratio` returns 1.0 when `T = 0`. -/
def ratioQ (a b : List Char) : ℚ :=
  if a.length + b.length = 0 then 1
  else 2 * (mbSum a b (a.length + b.length + 1) 0 a.length 0 b.length : ℚ)
        / (a.length + b.length)

/-- `KnowledgeTest._calculate_similarity`: lowercase both strings, then
`SequenceMatcher(None, str1, str2).ratio()`. -/
def calculate_similarity (s1 s2 : List Char) : ℚ :=
  ratioQ (pyLower s1) (pyLower s2)

/-! ### `KnowledgeTest` grading helpers -/

/-- The punctuation characters stripped by `_extract_keywords`
(the Python string `".,;:!?—()-\"'"`). -/
def punctChars : List Char :=
  ['.', ',', ';', ':', '!', '?', '—', '(', ')', '-', '"', '\'']

/-- The fixed stop-word list of `_extract_keywords`. -/
def stopWords : List (List Char) :=
  ["в".toList, "на".toList, "и".toList, "с".toList, "по".toList, "а".toList,
   "о".toList, "у".toList, "к".toList, "от".toList, "до".toList, "из".toList,
   "для".toList, "за".toList, "под".toList, "над".toList]

/-- `KnowledgeTest._extract_keywords`: lowercase, replace each punctuation
character by a space (the successive `str.replace(char, " ")` calls commute
because a space is never itself replaced), split on whitespace, and keep
the words of length > 3 that are not stop words. -/
def extract_keywords (text : List Char) : List (List Char) :=
  let t := pyLower text
  let t := t.map (fun c => if punctChars.contains c then ' ' else c)
  let words := pySplitWS t
  words.filter (fun w => decide (3 < w.length) && !stopWords.contains w)

/-- Variant of `extract_keywords` with the stop-word filter removed; used
only to compare against `extract_keywords` (claim C9). -/
def extract_keywords_nostop (text : List Char) : List (List Char) :=
  let t := pyLower text
  let t := t.map (fun c => if punctChars.contains c then ' ' else c)
  let words := pySplitWS t
  words.filter (fun w => decide (3 < w.length))

/-- `KnowledgeTest._check_keywords`: 0 for an empty keyword list, else the
fraction of keywords occurring as substrings of the lowercased answer. -/
def check_keywords (answer : List Char) (keywords : List (List Char)) : ℚ :=
  if keywords.isEmpty then 0
  else
    let a := pyLower answer
    ((keywords.filter (fun k => isSubstring k a)).length : ℚ) / keywords.length

/-- `KnowledgeTest._check_date_answer`.  Both answers are stripped and
lowercased.  Rule 1: exact equality.  Rule 2 (correct contains `-`): the
`try` block returns a bool unless `int()` raises, in which case the
exception is caught and control falls through; this block is modelled as
an `Option Bool` (`none` = fell through).  Rule 3 (correct contains a
space): true when some purely numeric token of correct is a substring of
the user answer.  Rule 4: two numeric strings compare by string equality.
Rule 5: similarity fallback at threshold 0.8. -/
def check_date_answer (user_answer correct_answer : List Char) : Bool :=
  let u := pyLower (pyStrip user_answer)
  let c := pyLower (pyStrip correct_answer)
  if u = c then true
  else
    let rule2 : Option Bool :=
      if '-' ∈ c then
        match mapIntPair (pySplitOn '-' c) with
        | none => none
        | some (cs, ce) =>
          if pyIsDigit u then
            some (decide (cs ≤ (digitsToNat u : Int) ∧ (digitsToNat u : Int) ≤ ce))
          else if '-' ∈ u then
            match mapIntPair (pySplitOn '-' u) with
            | none => none
            | some (us, ue) => some (decide (us = cs ∧ ue = ce))
          else none
      else none
    match rule2 with
    | some b => b
    | none =>
      if ' ' ∈ c ∧ (pySplitWS c).any (fun p => pyIsDigit p && isSubstring p u) then
        true
      else if pyIsDigit c ∧ pyIsDigit u then decide (c = u)
      else decide ((4 : ℚ)/5 ≤ calculate_similarity u c)

/-- `KnowledgeTest._calculate_name_similarity`: 1.0 on equality after
lowercasing; otherwise split both names into whitespace-separated parts
(each additionally stripped) and return the fraction of correct-name parts
for which some user part has similarity strictly above 0.8
(0.0 when the correct name has no parts). -/
def calculate_name_similarity (user_name correct_name : List Char) : ℚ :=
  let u := pyLower user_name
  let c := pyLower correct_name
  if u = c then 1
  else
    let user_parts := (pySplitWS u).map pyStrip
    let correct_parts := (pySplitWS c).map pyStrip
    let matched :=
      (correct_parts.filter (fun cp =>
        user_parts.any (fun up => decide ((4 : ℚ)/5 < calculate_similarity up cp)))).length
    if 0 < correct_parts.length then (matched : ℚ) / correct_parts.length else 0

/-! ### `KnowledgeTest.check_answer` -/

/-- An event record `{id, date, description}` from the data manager. -/
structure EventFact where
  id : Nat
  date : List Char
  description : List Char
deriving DecidableEq

/-- A figure record `{id, name, achievement}` from the data manager. -/
structure FigureFact where
  id : Nat
  name : List Char
  achievement : List Char
deriving DecidableEq

/-- `context.user_data["current_test"]`: the active question of a user. -/
inductive CurrentTest where
  | date (e : EventFact)
  | event (e : EventFact)
  | figure (f : FigureFact)
  | achievement (f : FigureFact)

/-- The grading core of `KnowledgeTest.check_answer`: the computation of
`is_correct` for each test type (messages and statistics recording are
side effects around this). -/
def check_answer (t : CurrentTest) (user_answer : List Char) : Bool :=
  match t with
  | .date e =>
    decide ((3 : ℚ)/5 ≤ calculate_similarity user_answer e.description) ||
      decide ((7 : ℚ)/10 ≤ check_keywords user_answer (extract_keywords e.description))
  | .event e => check_date_answer user_answer e.date
  | .figure f =>
    decide ((3 : ℚ)/5 ≤ calculate_similarity user_answer f.achievement) ||
      decide ((7 : ℚ)/10 ≤ check_keywords user_answer (extract_keywords f.achievement))
  | .achievement f =>
    decide ((4 : ℚ)/5 ≤ calculate_name_similarity user_answer f.name)

/-! ### Question selection (`start_date_test` / `start_figure_test`) -/

/-- Selection outcome: `indexError` models the `IndexError` raised by
`random.choice` on an empty sequence; `noData` models the
"no events in the database" message branch. -/
inductive SelErr where
  | indexError
  | noData
deriving DecidableEq

/-- Python truthiness of a fact dict in the `if not event:` guard: the
dicts produced by the data manager always carry three keys, and a
non-empty dict is truthy, so this is constantly `false`. -/
def factDictFalsy {α : Type} (_ : α) : Bool := false

/-- The selection logic shared by `start_date_test`, `start_event_test`,
`start_figure_test` and `start_achievement_test`: filter out consumed ids,
reset the consumed list when nothing is available, call
`random.choice(available)` (an `IndexError` on an empty sequence), append
the chosen id to the consumed list, then the (dead) `if not event:`
no-data branch.  `r` is the oracle for the random index. -/
def test_select {α : Type} (getId : α → Nat) (pool : List α)
    (consumed : List Nat) (r : Nat) : Except SelErr (α × List Nat) :=
  let available := pool.filter (fun x => !consumed.contains (getId x))
  let consumed1 := if available.isEmpty then [] else consumed
  let available1 := if available.isEmpty then pool else available
  match available1 with
  | [] => .error .indexError
  | x :: xs =>
    let chosen := (x :: xs).getD (r % (x :: xs).length) x
    let consumed2 := consumed1 ++ [getId chosen]
    if factDictFalsy chosen then .error .noData else .ok (chosen, consumed2)

/-- `start_date_test`'s selection over the event pool. -/
def start_date_test_select (pool : List EventFact) (consumed : List Nat)
    (r : Nat) : Except SelErr (EventFact × List Nat) :=
  test_select EventFact.id pool consumed r

/-- `start_figure_test`'s selection over the figure pool. -/
def start_figure_test_select (pool : List FigureFact) (consumed : List Nat)
    (r : Nat) : Except SelErr (FigureFact × List Nat) :=
  test_select FigureFact.id pool consumed r

/-- Run a sequence of selections, threading the consumed list; an
exception aborts the run.  Returns the list of chosen ids and the final
consumed list. -/
def runSelect {α : Type} (getId : α → Nat) (pool : List α) :
    List Nat → List Nat → List Nat × List Nat
  | [], consumed => ([], consumed)
  | r :: rs, consumed =>
    match test_select getId pool consumed r with
    | .ok (x, c') =>
      let p := runSelect getId pool rs c'
      (getId x :: p.1, p.2)
    | .error _ => ([], consumed)

/-! ### `KnowledgeTest.start_marathon` -/

/-- The four question types of the marathon. -/
inductive QType where
  | date
  | event
  | figure
  | achievement
deriving DecidableEq

/-- `question_types = ["date", "event", "figure", "achievement"]`. -/
def allQTypes : List QType := [.date, .event, .figure, .achievement]

/-- The question-type sequence built by `start_marathon` before the final
shuffle: a shuffled copy `base` of the four types (the caller supplies it
together with a proof that it is a permutation of `allQTypes`), then
uniformly random extra types (oracle `extra`) appended while the length is
below `questions_count`, then truncation to `questions_count`. -/
def build_marathon_questions (base : List QType) (extra : Nat → QType)
    (questions_count : Nat) : List QType :=
  (base ++ (List.range (questions_count - base.length)).map extra).take questions_count

/-! ### `StatsManager.add_test_result` -/

/-- Per-question statistics record. -/
structure QStats where
  test_type : List Char
  attempts : Nat
  correct : Nat
  last_attempt : Nat
  history : List (Nat × Bool)
deriving DecidableEq

/-- Per-user statistics record (`_get_or_create_user_stats` initialises
all fields to zero / empty).  The two dicts are insertion-ordered
association lists, as Python dicts are. -/
structure UserStats where
  tests_total : Nat
  tests_correct : Nat
  test_types : List (List Char × Nat × Nat)
  questions : List (List Char × QStats)
deriving DecidableEq

/-- Fresh user statistics. -/
def freshUserStats : UserStats := ⟨0, 0, [], []⟩

/-- Dict lookup (first matching key). -/
def dictGet {β : Type} : List (List Char × β) → List Char → Option β
  | [], _ => none
  | (k, v) :: rest, q => if k = q then some v else dictGet rest q

/-- The per-test-type update of `add_test_result`: create the
`{"total": 0, "correct": 0}` entry if absent (appended at the end, as
Python dict insertion does), then increment `total` and, on a correct
answer, `correct`. -/
def bumpType : List (List Char × Nat × Nat) → List Char → Bool →
    List (List Char × Nat × Nat)
  | [], t, c => [(t, 1, if c then 1 else 0)]
  | (k, tot, cor) :: rest, t, c =>
    if k = t then (k, tot + 1, if c then cor + 1 else cor) :: rest
    else (k, tot, cor) :: bumpType rest t c

/-- History truncation: `if len(history) > 10: history = history[-10:]`. -/
def truncHistory (h : List (Nat × Bool)) : List (Nat × Bool) :=
  if 10 < h.length then h.drop (h.length - 10) else h

/-- The per-question mutation of `add_test_result`: bump attempts and
correct count, set the last-attempt time, append to the history and keep
at most the last 10 entries. -/
def bumpQStats (c : Bool) (now : Nat) (qs : QStats) : QStats :=
  { qs with
    attempts := qs.attempts + 1
    correct := if c then qs.correct + 1 else qs.correct
    last_attempt := now
    history := truncHistory (qs.history ++ [(now, c)]) }

/-- The per-question dict update: create the zero entry if absent
(appended at the end), then apply the mutation to it. -/
def bumpQuestion (t : List Char) (c : Bool) (now : Nat) :
    List (List Char × QStats) → List Char → List (List Char × QStats)
  | [], q => [(q, bumpQStats c now ⟨t, 0, 0, 0, []⟩)]
  | (k, v) :: rest, q =>
    if k = q then (k, bumpQStats c now v) :: rest
    else (k, v) :: bumpQuestion t c now rest q

/-- `StatsManager.add_test_result` for one user (`now` is the oracle for
`int(time.time())`; file persistence is outside the model). -/
def add_test_result (s : UserStats) (test_type question : List Char)
    (is_correct : Bool) (now : Nat) : UserStats :=
  { tests_total := s.tests_total + 1
    tests_correct := if is_correct then s.tests_correct + 1 else s.tests_correct
    test_types := bumpType s.test_types test_type is_correct
    questions := bumpQuestion test_type is_correct now s.questions question }

/-- One recorded result: test type, question label, correctness,
timestamp. -/
structure ResultEntry where
  test_type : List Char
  question : List Char
  is_correct : Bool
  now : Nat

/-- Record a sequence of results starting from fresh statistics. -/
def applyResults (entries : List ResultEntry) : UserStats :=
  entries.foldl (fun s e => add_test_result s e.test_type e.question e.is_correct e.now)
    freshUserStats

/-- Length of the diagonal run of non-purged positions ending at `i`
(for the self-comparison `SequenceMatcher(None, a, a)`): the value that
the `j2len` dynamic programming assigns to the diagonal cell `(i, i)`. -/
def dsRun (a : List Char) : Nat → Nat
  | 0 => if 0 ∈ b2j a (a.getD 0 ' ') then 1 else 0
  | i + 1 => if (i + 1) ∈ b2j a (a.getD (i + 1) ' ') then dsRun a i + 1 else 0

/-! ### Lemmas about `b2j` -/

theorem mem_b2j_iff {a : List Char} {c : Char} {j : Nat} :
    j ∈ b2j a c ↔ isPopular a c = false ∧ j < a.length ∧ a.getD j ' ' = c := by
  unfold b2j
  by_cases hp : isPopular a c
  · simp [hp]
  · simp [hp, List.mem_filter, List.mem_range, and_assoc]

theorem b2j_sorted (a : List Char) (c : Char) : (b2j a c).Pairwise (· < ·) := by
  unfold b2j
  by_cases hp : isPopular a c
  · simp [hp]
  · simpa [hp] using (List.pairwise_lt_range a.length).filter _

/-- A position listed in row `i`'s index list is itself a seed position
(it indexes the same, non-popular, character). -/
theorem seed_of_mem_row {a : List Char} {i j : Nat}
    (h : j ∈ b2j a (a.getD i ' ')) : j ∈ b2j a (a.getD j ' ') := by
  rcases mem_b2j_iff.mp h with ⟨hpop, hj, hc⟩
  exact mem_b2j_iff.mpr ⟨by rwa [hc], hj, rfl⟩

/-- If row `i`'s index list is non-empty then `i` itself appears in it
(provided `i < a.length`): the character `a[i]` is not purged. -/
theorem diag_mem_row {a : List Char} {i j : Nat} (hi : i < a.length)
    (h : j ∈ b2j a (a.getD i ' ')) : i ∈ b2j a (a.getD i ' ') := by
  rcases mem_b2j_iff.mp h with ⟨hpop, _, _⟩
  exact mem_b2j_iff.mpr ⟨hpop, hi, rfl⟩

theorem dsRun_of_not_seed {a : List Char} {i : Nat}
    (h : i ∉ b2j a (a.getD i ' ')) : dsRun a i = 0 := by
  cases i with
  | zero => unfold dsRun; rw [if_neg h]
  | succ i => unfold dsRun; rw [if_neg h]

theorem dsRun_pos_of_seed {a : List Char} {i : Nat}
    (h : i ∈ b2j a (a.getD i ' ')) : 1 ≤ dsRun a i := by
  cases i with
  | zero => unfold dsRun; rw [if_pos h]
  | succ i => unfold dsRun; rw [if_pos h]; omega

theorem dsRun_succ_of_seed {a : List Char} {i : Nat} (hi : 1 ≤ i)
    (h : i ∈ b2j a (a.getD i ' ')) : dsRun a i = dsRun a (i - 1) + 1 := by
  cases i with
  | zero => omega
  | succ i =>
    rw [show i + 1 - 1 = i from rfl]
    conv_lhs => rw [dsRun]
    rw [if_pos h]

theorem dsRun_le_succ (a : List Char) : ∀ i, dsRun a i ≤ i + 1 := by
  intro i
  induction i with
  | zero => unfold dsRun; split <;> omega
  | succ i ih => unfold dsRun; split <;> omega

theorem rowScan_cons_eq {i blo bhi : Nat} {prev : Nat → Nat} {j : Nat}
    {js : List Nat} {acc : Nat → Nat} {best : FlmRes}
    (h1 : ¬ j < blo) (h2 : ¬ bhi ≤ j) :
    rowScan i blo bhi prev (j :: js) acc best =
      rowScan i blo bhi prev js
        (fun x => if x = j then (if j = 0 then 0 else prev (j - 1)) + 1 else acc x)
        (if best.size < (if j = 0 then 0 else prev (j - 1)) + 1 then
          (⟨i + 1 - ((if j = 0 then 0 else prev (j - 1)) + 1),
            j + 1 - ((if j = 0 then 0 else prev (j - 1)) + 1),
            (if j = 0 then 0 else prev (j - 1)) + 1⟩ : FlmRes)
        else best) := by
  conv_lhs => rw [rowScan]
  rw [if_neg h1, if_neg h2]

/-- The central invariant of the `find_longest_match` scan on a
self-comparison: processing one row of `SequenceMatcher(None, a, a)` over
the full ranges keeps the running best block on the diagonal, keeps its
size at least every diagonal run seen so far, and computes the new `j2len`
row exactly on the diagonal. -/
theorem rowScan_diag (a : List Char) (i : Nat) (hi : i < a.length)
    (prev : Nat → Nat)
    (hprev1 : ∀ x, prev x ≤ dsRun a x)
    (hprev2 : ∀ x, i ≤ x + 1 → prev x = 0 ∨ (1 ≤ i ∧ prev x ≤ dsRun a (i - 1)))
    (hprev3 : i = 0 ∨ prev (i - 1) = dsRun a (i - 1)) :
    ∀ (L : List Nat) (acc : Nat → Nat) (best : FlmRes),
      L.Pairwise (· < ·) →
      (∀ j ∈ L, j ∈ b2j a (a.getD i ' ')) →
      (∀ x, acc x ≤ dsRun a x) →
      (∀ x, i ≤ x → acc x = 0 ∨ acc x ≤ dsRun a i) →
      (i ∈ L ∨ acc i = dsRun a i) →
      best.i = best.j →
      (∀ r, r < i → dsRun a r ≤ best.size) →
      (i ∈ L ∨ dsRun a i ≤ best.size) →
      best.j + best.size ≤ a.length →
      (∀ x, (rowScan i 0 a.length prev L acc best).1 x ≤ dsRun a x) ∧
      (∀ x, i ≤ x → (rowScan i 0 a.length prev L acc best).1 x = 0 ∨
        (rowScan i 0 a.length prev L acc best).1 x ≤ dsRun a i) ∧
      (rowScan i 0 a.length prev L acc best).1 i = dsRun a i ∧
      (rowScan i 0 a.length prev L acc best).2.i =
        (rowScan i 0 a.length prev L acc best).2.j ∧
      (∀ r, r < i + 1 → dsRun a r ≤ (rowScan i 0 a.length prev L acc best).2.size) ∧
      (rowScan i 0 a.length prev L acc best).2.j +
        (rowScan i 0 a.length prev L acc best).2.size ≤ a.length := by
  intro L
  induction L with
  | nil =>
    intro acc best _ _ hacc1 hacc2 hacc3 hb1 hb2 hb3 hb4
    refine ⟨hacc1, hacc2, ?_, hb1, ?_, hb4⟩
    · rcases hacc3 with h | h
      · exact absurd h (List.not_mem_nil i)
      · exact h
    · intro r hr
      rcases Nat.lt_succ_iff_lt_or_eq.mp hr with h | h
      · exact hb2 r h
      · rcases hb3 with h3 | h3
        · exact absurd h3 (List.not_mem_nil i)
        · exact h ▸ h3
  | cons j js ih =>
    intro acc best hL1 hL2 hacc1 hacc2 hacc3 hb1 hb2 hb3 hb4
    have hjmem : j ∈ b2j a (a.getD i ' ') := hL2 j (List.mem_cons_self j js)
    have hjlen : j < a.length := (mem_b2j_iff.mp hjmem).2.1
    have hseedj : j ∈ b2j a (a.getD j ' ') := seed_of_mem_row hjmem
    have hseedi : i ∈ b2j a (a.getD i ' ') := diag_mem_row hi hjmem
    have hdsi1 : 1 ≤ dsRun a i := dsRun_pos_of_seed hseedi
    set k := (if j = 0 then 0 else prev (j - 1)) + 1 with hk
    have hF1 : k ≤ dsRun a j := by
      by_cases hj0 : j = 0
      · subst hj0
        simpa [hk] using dsRun_pos_of_seed hseedj
      · have hj1 : 1 ≤ j := Nat.one_le_iff_ne_zero.mpr hj0
        rw [hk, if_neg hj0, dsRun_succ_of_seed hj1 hseedj]
        exact Nat.add_le_add_right (hprev1 (j - 1)) 1
    have hF2 : i ≤ j → k ≤ dsRun a i := by
      intro hij
      by_cases hj0 : j = 0
      · have hi0 : i = 0 := by omega
        subst hj0; subst hi0
        simpa [hk] using hdsi1
      · have hj1 : 1 ≤ j := Nat.one_le_iff_ne_zero.mpr hj0
        rw [hk, if_neg hj0]
        rcases hprev2 (j - 1) (by omega) with h0 | ⟨hi1, hle⟩
        · rw [h0]; exact hdsi1
        · rw [dsRun_succ_of_seed hi1 hseedi]
          exact Nat.add_le_add_right hle 1
    have hF4 : j = i → k = dsRun a i := by
      intro hji; subst hji
      by_cases hj0 : j = 0
      · subst hj0
        have : dsRun a 0 = 1 := by unfold dsRun; rw [if_pos hseedi]
        simp [hk, this]
      · have hj1 : 1 ≤ j := Nat.one_le_iff_ne_zero.mpr hj0
        rcases hprev3 with h | h
        · omega
        · rw [hk, if_neg hj0, h, dsRun_succ_of_seed hj1 hseedi]
    have hkj1 : k ≤ j + 1 := le_trans hF1 (dsRun_le_succ a j)
    have hnotin : i < j → i ∉ js := by
      intro hij hmem
      have := (List.pairwise_cons.mp hL1).1 i hmem
      omega
    rw [rowScan_cons_eq (by omega) (by omega)]
    rw [← hk]
    set acc' := fun x => if x = j then k else acc x with hacc'
    have haccx : ∀ x, acc' x = if x = j then k else acc x := fun _ => rfl
    have hacc1' : ∀ x, acc' x ≤ dsRun a x := by
      intro x
      rw [haccx x]
      by_cases hxj : x = j
      · rw [if_pos hxj, hxj]; exact hF1
      · rw [if_neg hxj]; exact hacc1 x
    have hacc2' : ∀ x, i ≤ x → acc' x = 0 ∨ acc' x ≤ dsRun a i := by
      intro x hx
      rw [haccx x]
      by_cases hxj : x = j
      · rw [if_pos hxj]
        exact Or.inr (hF2 (hxj ▸ hx))
      · rw [if_neg hxj]; exact hacc2 x hx
    have hacc3' : i ∈ js ∨ acc' i = dsRun a i := by
      by_cases hij : i = j
      · right; rw [haccx i, if_pos hij]; exact hF4 hij.symm
      · rcases hacc3 with hmem | heq
        · rcases List.mem_cons.mp hmem with h | h
          · exact absurd h.symm (by exact fun hh => hij hh.symm)
          · exact Or.inl h
        · right; rw [haccx i, if_neg hij]; exact heq
    by_cases hcase : best.size < k
    · rw [if_pos hcase]
      -- the update can only happen on the diagonal
      have hji : j = i := by
        rcases Nat.lt_trichotomy j i with h | h | h
        · exact absurd hcase (by
            have := le_trans hF1 (hb2 j h)
            omega)
        · exact h
        · exfalso
          have hnot : i ∉ j :: js := by
            intro hmem
            rcases List.mem_cons.mp hmem with hh | hh
            · omega
            · exact hnotin h hh
          rcases hb3 with h3 | h3
          · exact hnot h3
          · have := le_trans (hF2 (le_of_lt h)) h3
            omega
      refine ih acc' ⟨i + 1 - k, j + 1 - k, k⟩ (List.pairwise_cons.mp hL1).2
        (fun x hx => hL2 x (List.mem_cons_of_mem j hx)) hacc1' hacc2' hacc3'
        (by rw [hji]) ?_ ?_ ?_
      · intro r hr
        exact le_trans (le_of_lt (lt_of_le_of_lt (hb2 r hr) hcase)) (le_refl k)
      · right
        rw [← hF4 hji]
      · show j + 1 - k + k ≤ a.length
        omega
    · rw [if_neg hcase]
      have hb3' : i ∈ js ∨ dsRun a i ≤ best.size := by
        by_cases hij : i = j
        · right; rw [← hF4 hij.symm]; omega
        · rcases hb3 with hmem | hle
          · rcases List.mem_cons.mp hmem with h | h
            · exact absurd h hij
            · exact Or.inl h
          · exact Or.inr hle
      exact ih acc' best (List.pairwise_cons.mp hL1).2
        (fun x hx => hL2 x (List.mem_cons_of_mem j hx)) hacc1' hacc2' hacc3'
        hb1 hb2 hb3' hb4

/-- On a self-comparison over the full ranges, the dynamic-programming
stage of `find_longest_match` ends with a diagonal best block whose size
dominates every diagonal run. -/
theorem dpRows_diag (a : List Char) :
    ∀ (fuel i : Nat) (prev : Nat → Nat) (best : FlmRes),
      fuel + i = a.length →
      (∀ x, prev x ≤ dsRun a x) →
      (∀ x, i ≤ x + 1 → prev x = 0 ∨ (1 ≤ i ∧ prev x ≤ dsRun a (i - 1))) →
      (i = 0 ∨ prev (i - 1) = dsRun a (i - 1)) →
      best.i = best.j →
      (∀ r, r < i → dsRun a r ≤ best.size) →
      best.j + best.size ≤ a.length →
      (dpRows a a 0 a.length fuel i prev best).i =
        (dpRows a a 0 a.length fuel i prev best).j ∧
      (∀ r, r < a.length → dsRun a r ≤ (dpRows a a 0 a.length fuel i prev best).size) ∧
      (dpRows a a 0 a.length fuel i prev best).j +
        (dpRows a a 0 a.length fuel i prev best).size ≤ a.length := by
  intro fuel
  induction fuel with
  | zero =>
    intro i prev best hfi _ _ _ hb1 hb2 hb4
    have hi : i = a.length := by omega
    exact ⟨hb1, fun r hr => hb2 r (by omega), hb4⟩
  | succ fuel ih =>
    intro i prev best hfi hprev1 hprev2 hprev3 hb1 hb2 hb4
    have hi : i < a.length := by omega
    have hrow := rowScan_diag a i hi prev hprev1 hprev2 hprev3
      (b2j a (a.getD i ' ')) (fun _ => 0) best
      (b2j_sorted a _) (fun _ hx => hx)
      (fun _ => Nat.zero_le _) (fun _ _ => Or.inl rfl)
      (by
        by_cases hs : i ∈ b2j a (a.getD i ' ')
        · exact Or.inl hs
        · exact Or.inr (dsRun_of_not_seed hs).symm)
      hb1 hb2
      (by
        by_cases hs : i ∈ b2j a (a.getD i ' ')
        · exact Or.inl hs
        · rw [dsRun_of_not_seed hs]; exact Or.inr (Nat.zero_le _))
      hb4
    obtain ⟨c1, c2, c3, c4, c5, c6⟩ := hrow
    rw [show dpRows a a 0 a.length (fuel + 1) i prev best =
        dpRows a a 0 a.length fuel (i + 1)
          (rowScan i 0 a.length prev (b2j a (a.getD i ' ')) (fun _ => 0) best).1
          (rowScan i 0 a.length prev (b2j a (a.getD i ' ')) (fun _ => 0) best).2
      from rfl]
    exact ih (i + 1) _ _ (by omega) c1
      (fun x hx => by
        rcases c2 x (by omega) with h | h
        · exact Or.inl h
        · exact Or.inr ⟨by omega, by simpa using h⟩)
      (Or.inr (by simpa using c3))
      c4 c5 c6

/-- The first left extension loop on a self-comparison with a diagonal
best block runs all the way to the left edge. -/
theorem extLeft_true_self (a : List Char) (p : Char → Bool)
    (hp : ∀ c, p c = true) :
    ∀ (d s : Nat), extLeft a a p 0 0 d ⟨d, d, s⟩ = ⟨0, 0, s + d⟩ := by
  intro d
  induction d with
  | zero => intro s; rfl
  | succ d ih =>
    intro s
    rw [extLeft, if_pos ⟨Nat.succ_pos d, Nat.succ_pos d, hp _, rfl⟩]
    rw [show (⟨d + 1 - 1, d + 1 - 1, s + 1⟩ : FlmRes) = ⟨d, d, s + 1⟩ from rfl]
    rw [ih (s + 1)]
    congr 1
    omega

/-- The first right extension loop on a self-comparison starting from a
left-anchored diagonal block runs to the full length. -/
theorem extRight_true_self (a : List Char) (p : Char → Bool)
    (hp : ∀ c, p c = true) :
    ∀ (fuel t : Nat), t ≤ a.length → a.length - t ≤ fuel →
      extRight a a p a.length a.length fuel ⟨0, 0, t⟩ = ⟨0, 0, a.length⟩ := by
  intro fuel
  induction fuel with
  | zero =>
    intro t ht hf
    have ht' : t = a.length := by omega
    rw [ht']
    rfl
  | succ fuel ih =>
    intro t ht hf
    by_cases hlt : t < a.length
    · rw [extRight,
        if_pos ⟨show 0 + t < a.length by omega, show 0 + t < a.length by omega,
          hp _, rfl⟩]
      exact ih (t + 1) (by omega) (by omega)
    · have ht' : t = a.length := by omega
      subst ht'
      rw [extRight,
        if_neg (fun h => absurd h.1 (show ¬ 0 + a.length < a.length by omega))]

/-- The junk extension loops are vacuous when `isjunk=None`. -/
theorem extLeft_junk_noop (a b : List Char) (alo blo : Nat) :
    ∀ (fuel : Nat) (m : FlmRes), extLeft a b isBJunk alo blo fuel m = m := by
  intro fuel m
  cases fuel with
  | zero => rfl
  | succ fuel => rw [extLeft, if_neg (by simp [isBJunk])]

/-- The junk extension loops are vacuous when `isjunk=None`. -/
theorem extRight_junk_noop (a b : List Char) (ahi bhi : Nat) :
    ∀ (fuel : Nat) (m : FlmRes), extRight a b isBJunk ahi bhi fuel m = m := by
  intro fuel m
  cases fuel with
  | zero => rfl
  | succ fuel => rw [extRight, if_neg (by simp [isBJunk])]

/-- `find_longest_match` over the full ranges of a self-comparison
returns the whole string: whatever (diagonal) block the scan finds, the
extension loops grow it to the full diagonal. -/
theorem findLongestMatch_self (a : List Char) :
    findLongestMatch a a 0 a.length 0 a.length = ⟨0, 0, a.length⟩ := by
  have hp : ∀ c, (fun c => !isBJunk c) c = true := by
    intro c; simp [isBJunk]
  have hdp := dpRows_diag a (a.length - 0) 0 (fun _ => 0) ⟨0, 0, 0⟩
    (by omega) (fun _ => Nat.zero_le _) (fun _ _ => Or.inl rfl) (Or.inl rfl)
    rfl (fun r hr => by omega) (by simp)
  show extRight a a isBJunk a.length a.length a.length
      (extLeft a a isBJunk 0 0
        (extRight a a (fun c => !isBJunk c) a.length a.length a.length
          (extLeft a a (fun c => !isBJunk c) 0 0
            (dpRows a a 0 a.length (a.length - 0) 0 (fun _ => 0) ⟨0, 0, 0⟩).i
            (dpRows a a 0 a.length (a.length - 0) 0 (fun _ => 0) ⟨0, 0, 0⟩))).i
        (extRight a a (fun c => !isBJunk c) a.length a.length a.length
          (extLeft a a (fun c => !isBJunk c) 0 0
            (dpRows a a 0 a.length (a.length - 0) 0 (fun _ => 0) ⟨0, 0, 0⟩).i
            (dpRows a a 0 a.length (a.length - 0) 0 (fun _ => 0) ⟨0, 0, 0⟩)))) =
      ⟨0, 0, a.length⟩
  revert hdp
  generalize dpRows a a 0 a.length (a.length - 0) 0 (fun _ => 0) ⟨0, 0, 0⟩ = m0
  intro hdp
  obtain ⟨i0, j0, s0⟩ := m0
  obtain ⟨hd, _, hb⟩ := hdp
  have hd' : i0 = j0 := hd
  subst hd'
  have hb' : i0 + s0 ≤ a.length := hb
  rw [show ((⟨i0, i0, s0⟩ : FlmRes)).i = i0 from rfl]
  rw [extLeft_true_self a _ hp i0 s0]
  rw [extRight_true_self a _ hp a.length (s0 + i0) (by omega) (by omega)]
  rw [extLeft_junk_noop, extRight_junk_noop]

/-- The total matched length of a self-comparison is the full length. -/
theorem mbSum_self (a : List Char) :
    mbSum a a (a.length + a.length + 1) 0 a.length 0 a.length = a.length := by
  rw [mbSum, findLongestMatch_self]
  by_cases hn : a.length = 0
  · rw [if_pos hn]
    exact hn.symm
  · rw [if_neg hn]
    rw [if_neg (fun h => absurd h.1 (show ¬ (0 : Nat) < 0 by omega)),
      if_neg (fun h => absurd h.1 (show ¬ 0 + a.length < a.length by omega))]
    rfl

/-- `SequenceMatcher(None, a, a).ratio() == 1.0` for every string `a`
(including the autojunk regime `len(a) ≥ 200`). -/
theorem ratioQ_self (a : List Char) : ratioQ a a = 1 := by
  unfold ratioQ
  by_cases h : a.length + a.length = 0
  · rw [if_pos h]
  · rw [if_neg h, mbSum_self]
    have hn : a.length ≠ 0 := by omega
    have hq : ((a.length : ℚ) + (a.length : ℚ)) ≠ 0 := by
      have : 0 < a.length := Nat.pos_of_ne_zero hn
      have h1 : (0 : ℚ) < (a.length : ℚ) := by exact_mod_cast this
      nlinarith
    rw [div_eq_one_iff_eq hq]
    ring

/-- `_calculate_similarity(s, s) == 1.0` for every string. -/
theorem calculate_similarity_self (s : List Char) :
    calculate_similarity s s = 1 :=
  ratioQ_self (pyLower s)

/-! ### Digit-string lemmas -/

theorem digit_toNat_bounds {c : Char} (h : c.isDigit = true) :
    48 ≤ c.toNat ∧ c.toNat ≤ 57 := by
  simp [Char.isDigit] at h
  exact ⟨h.1, h.2⟩

theorem pyCharLower_digit {c : Char} (h : c.isDigit = true) :
    pyCharLower c = c := by
  obtain ⟨h1, h2⟩ := digit_toNat_bounds h
  rw [pyCharLower,
    if_neg (fun hcon => by
      have h65 : 65 ≤ c.toNat := hcon.1
      omega),
    if_neg (fun hcon => by
      have h1040 : 1040 ≤ c.toNat := hcon.1
      omega),
    if_neg (fun he => by subst he; exact absurd h2 (by decide))]

theorem pyIsSpace_digit {c : Char} (h : c.isDigit = true) :
    pyIsSpace c = false := by
  obtain ⟨h1, h2⟩ := digit_toNat_bounds h
  simp only [pyIsSpace, Bool.or_eq_false_iff]
  refine ⟨⟨⟨⟨⟨?_, ?_⟩, ?_⟩, ?_⟩, ?_⟩, ?_⟩ <;>
    first
      | (rw [beq_eq_false_iff_ne]; intro he; subst he; exact absurd h1 (by decide))
      | (rw [beq_eq_false_iff_ne]; omega)

theorem dropWhile_eq_self_of_false {p : Char → Bool} {s : List Char}
    (h : ∀ c ∈ s, p c = false) : s.dropWhile p = s := by
  cases s with
  | nil => rfl
  | cons c rest =>
    rw [List.dropWhile_cons, if_neg (by simp [h c (List.mem_cons_self c rest)])]

theorem pyStrip_eq_self {s : List Char} (h : ∀ c ∈ s, pyIsSpace c = false) :
    pyStrip s = s := by
  rw [pyStrip, dropWhile_eq_self_of_false h,
    dropWhile_eq_self_of_false (fun c hc => h c (List.mem_reverse.mp hc)),
    List.reverse_reverse]

theorem pyLower_eq_self_of_digits {s : List Char}
    (h : ∀ c ∈ s, c.isDigit = true) : pyLower s = s := by
  induction s with
  | nil => rfl
  | cons c rest ih =>
    rw [pyLower, List.map_cons, pyCharLower_digit (h c (List.mem_cons_self c rest))]
    rw [show List.map pyCharLower rest = pyLower rest from rfl,
      ih (fun x hx => h x (List.mem_cons_of_mem c hx))]

theorem pyIsDigit_all {s : List Char} (h : pyIsDigit s = true) :
    ∀ c ∈ s, c.isDigit = true := by
  simp only [pyIsDigit, Bool.and_eq_true, List.all_eq_true] at h
  exact h.2

/-- The strip-and-lowercase preprocessing of `_check_date_answer` fixes a
purely numeric answer. -/
theorem pyProcess_digits {s : List Char} (h : pyIsDigit s = true) :
    pyLower (pyStrip s) = s := by
  have hall := pyIsDigit_all h
  rw [pyStrip_eq_self (fun c hc => pyIsSpace_digit (hall c hc)),
    pyLower_eq_self_of_digits hall]

theorem not_mem_of_pyIsDigit {s : List Char} {c : Char}
    (h : pyIsDigit s = true) (hc : c.isDigit = false) : c ∉ s := by
  intro hmem
  rw [pyIsDigit_all h c hmem] at hc
  exact Bool.noConfusion hc

theorem pyIsDigit_false_of_mem {s : List Char} {c : Char}
    (h : c ∈ s) (hc : c.isDigit = false) : pyIsDigit s = false := by
  by_contra hcon
  have hT : pyIsDigit s = true := by
    cases hb : pyIsDigit s with
    | false => exact absurd hb hcon
    | true => rfl
  rw [pyIsDigit_all hT c h] at hc
  exact Bool.noConfusion hc

/-! ### `pySplitOn` lemmas -/

theorem pySplitOn_of_not_mem {sep : Char} : ∀ {l : List Char},
    sep ∉ l → pySplitOn sep l = [l] := by
  intro l
  induction l with
  | nil => intro _; rfl
  | cons c rest ih =>
    intro h
    have hc : ¬ c = sep := fun he => h (he ▸ List.mem_cons_self c rest)
    rw [pySplitOn, if_neg hc, ih (fun hm => h (List.mem_cons_of_mem c hm))]

theorem mem_of_pySplitOn_pair {sep : Char} {l x y : List Char}
    {t : List (List Char)} (h : pySplitOn sep l = x :: y :: t) : sep ∈ l := by
  by_contra hn
  rw [pySplitOn_of_not_mem hn] at h
  exact List.noConfusion (List.noConfusion h (fun _ h2 => h2))

theorem mapIntPair_some_shape {parts : List (List Char)} {p : Int × Int}
    (h : mapIntPair parts = some p) :
    ∃ x y, parts = [x, y] ∧ pyInt x = some p.1 ∧ pyInt y = some p.2 := by
  match parts with
  | [] => exact absurd h (by simp [mapIntPair])
  | [x] => exact absurd h (by simp [mapIntPair])
  | [x, y] =>
    rw [mapIntPair] at h
    obtain ⟨p1, p2⟩ := p
    match hx : pyInt x, hy : pyInt y with
    | some a, some b =>
      rw [hx, hy] at h
      simp only [Option.some.injEq, Prod.mk.injEq] at h
      exact ⟨x, y, rfl, by rw [hx, h.1], by rw [hy, h.2]⟩
    | some a, none => rw [hx, hy] at h; exact absurd h (by simp)
    | none, some b => rw [hx, hy] at h; exact absurd h (by simp)
    | none, none => rw [hx, hy] at h; exact absurd h (by simp)
  | x :: y :: z :: t => exact absurd h (by simp [mapIntPair])


/-- Evaluation form of `ratioQ`: once the (purely `Nat`-level) matched
total is computed, the ratio is plain rational arithmetic. -/
theorem ratioQ_eval {a b : List Char} {m : Nat}
    (hm : mbSum a b (a.length + b.length + 1) 0 a.length 0 b.length = m)
    (hne : a.length + b.length ≠ 0) :
    ratioQ a b = 2 * (m : ℚ) / ((a.length : ℚ) + (b.length : ℚ)) := by
  rw [ratioQ, if_neg hne, hm]

/-- Definitional unfolding of `check_date_answer` (the `let`s of the
definition zeta-reduced), for rewriting. -/
theorem check_date_answer_def (user_answer correct_answer : List Char) :
    check_date_answer user_answer correct_answer =
      (if pyLower (pyStrip user_answer) = pyLower (pyStrip correct_answer) then true
      else
        match
          (if '-' ∈ pyLower (pyStrip correct_answer) then
            match mapIntPair (pySplitOn '-' (pyLower (pyStrip correct_answer))) with
            | none => none
            | some (cs, ce) =>
              if pyIsDigit (pyLower (pyStrip user_answer)) then
                some (decide (cs ≤ (digitsToNat (pyLower (pyStrip user_answer)) : Int) ∧
                  (digitsToNat (pyLower (pyStrip user_answer)) : Int) ≤ ce))
              else if '-' ∈ pyLower (pyStrip user_answer) then
                match mapIntPair (pySplitOn '-' (pyLower (pyStrip user_answer))) with
                | none => none
                | some (us, ue) => some (decide (us = cs ∧ ue = ce))
              else none
          else none) with
        | some b => b
        | none =>
          if ' ' ∈ pyLower (pyStrip correct_answer) ∧
              (pySplitWS (pyLower (pyStrip correct_answer))).any
                (fun p => pyIsDigit p && isSubstring p (pyLower (pyStrip user_answer))) then
            true
          else if pyIsDigit (pyLower (pyStrip correct_answer)) ∧
              pyIsDigit (pyLower (pyStrip user_answer)) then
            decide (pyLower (pyStrip correct_answer) = pyLower (pyStrip user_answer))
          else
            decide ((4 : ℚ)/5 ≤ calculate_similarity (pyLower (pyStrip user_answer))
              (pyLower (pyStrip correct_answer)))) :=
  rfl

/-- Evaluation of `_check_date_answer` through rule 2 when the correct
answer is a parsable range and the user answer is purely numeric. -/
theorem check_date_answer_range {user_answer correct_answer : List Char}
    {cs ce : Int}
    (hsplit : mapIntPair (pySplitOn '-' (pyLower (pyStrip correct_answer))) =
      some (cs, ce))
    (hud : pyIsDigit user_answer = true) :
    check_date_answer user_answer correct_answer =
      decide (cs ≤ (digitsToNat user_answer : Int) ∧
        (digitsToNat user_answer : Int) ≤ ce) := by
  have hu : pyLower (pyStrip user_answer) = user_answer := pyProcess_digits hud
  obtain ⟨x, y, hparts, _, _⟩ := mapIntPair_some_shape hsplit
  have hmem : '-' ∈ pyLower (pyStrip correct_answer) := mem_of_pySplitOn_pair hparts
  have hne : ¬ (pyLower (pyStrip user_answer) = pyLower (pyStrip correct_answer)) := by
    rw [hu]
    intro he
    exact not_mem_of_pyIsDigit hud (by decide) (he ▸ hmem)
  rw [check_date_answer_def, if_neg hne, hu, if_pos hmem, hsplit]
  simp only [hud, if_true]


/-- C3: for every correct answer of the form "YYYY-YYYY" with integer
bounds (after trim+lowercase) and every purely numeric user answer, the
date-answer check returns true iff the user's integer lies within
[start, end] inclusive; and the four concrete examples of the spec hold. -/
theorem C3_year_range_membership :
    (∀ (user_answer correct_answer : List Char) (cs ce : Int),
      mapIntPair (pySplitOn '-' (pyLower (pyStrip correct_answer))) = some (cs, ce) →
      pyIsDigit user_answer = true →
      (check_date_answer user_answer correct_answer = true ↔
        (cs ≤ (digitsToNat user_answer : Int) ∧ (digitsToNat user_answer : Int) ≤ ce))) ∧
    check_date_answer "1941-1944".toList "1941-1944".toList = true ∧
    check_date_answer "1942".toList "1941-1944".toList = true ∧
    check_date_answer "1569".toList "1569".toList = true ∧
    check_date_answer "1940".toList "1941-1944".toList = false := by
  refine ⟨?_, by decide, by decide, by decide, by decide⟩
  intro user_answer correct_answer cs ce hsplit hud
  rw [check_date_answer_range hsplit hud]
  exact decide_eq_true_iff

/-- C3 witness: the general range rule applied at the concrete instance
user "1942", correct "1941-1944". -/
theorem C3_year_range_membership_witness :
    check_date_answer "1942".toList "1941-1944".toList = true ↔
      ((1941 : Int) ≤ (digitsToNat "1942".toList : Int) ∧
        (digitsToNat "1942".toList : Int) ≤ 1944) :=
  C3_year_range_membership.1 "1942".toList "1941-1944".toList 1941 1944
    (by decide) (by decide)

/-- C1 counterexample: for user "1941" and correct "1941 b-c" the correct
answer contains a hyphen and its bound parse fails, yet the check returns
true via the textual-month rule (rule 3) while the similarity fallback
threshold is not met — so the check does not fall through directly to
rule 5. -/
theorem C1_counterexample :
    check_date_answer "1941".toList "1941 b-c".toList = true ∧
    '-' ∈ pyLower (pyStrip "1941 b-c".toList) ∧
    mapIntPair (pySplitOn '-' (pyLower (pyStrip "1941 b-c".toList))) = none ∧
    ¬ ((4 : ℚ)/5 ≤ calculate_similarity (pyLower (pyStrip "1941".toList))
      (pyLower (pyStrip "1941 b-c".toList))) := by
  refine ⟨by decide, by decide, by decide, ?_⟩
  rw [show pyLower (pyStrip "1941".toList) = "1941".toList from by decide,
    show pyLower (pyStrip "1941 b-c".toList) = "1941 b-c".toList from by decide,
    show calculate_similarity "1941".toList "1941 b-c".toList = 2/3 from ?_]
  · norm_num
  · show ratioQ (pyLower "1941".toList) (pyLower "1941 b-c".toList) = 2/3
    rw [show pyLower "1941".toList = "1941".toList from by decide,
      show pyLower "1941 b-c".toList = "1941 b-c".toList from by decide,
      ratioQ_eval (m := 4) (by decide) (by decide),
      show "1941".toList.length = 4 from rfl,
      show "1941 b-c".toList.length = 8 from rfl]
    norm_num


/-- C1 (amended): when the correct answer contains a hyphen, the bound
parse (of the correct side, or of a hyphenated non-numeric user side)
fails, and the correct answer contains no space, the check falls through
to the similarity fallback: the result equals
`stringSimilarity(user, correct) >= 0.8`.  (With a space in the correct
answer, rule 3 may still intervene — see the counterexample.) -/
theorem C1_parse_fallthrough (user_answer correct_answer : List Char)
    (hdash : '-' ∈ pyLower (pyStrip correct_answer))
    (hfail : mapIntPair (pySplitOn '-' (pyLower (pyStrip correct_answer))) = none ∨
      (∃ cs ce, mapIntPair (pySplitOn '-' (pyLower (pyStrip correct_answer))) =
          some (cs, ce) ∧
        pyIsDigit (pyLower (pyStrip user_answer)) = false ∧
        '-' ∈ pyLower (pyStrip user_answer) ∧
        mapIntPair (pySplitOn '-' (pyLower (pyStrip user_answer))) = none))
    (hnospace : ' ' ∉ pyLower (pyStrip correct_answer)) :
    check_date_answer user_answer correct_answer =
      decide ((4 : ℚ)/5 ≤ calculate_similarity (pyLower (pyStrip user_answer))
        (pyLower (pyStrip correct_answer))) := by
  have hcd : pyIsDigit (pyLower (pyStrip correct_answer)) = false :=
    pyIsDigit_false_of_mem hdash (by decide)
  by_cases heq : pyLower (pyStrip user_answer) = pyLower (pyStrip correct_answer)
  · rw [check_date_answer_def, if_pos heq, heq, calculate_similarity_self,
      decide_eq_true (by norm_num : (4 : ℚ)/5 ≤ (1 : ℚ))]
  · rw [check_date_answer_def, if_neg heq, if_pos hdash]
    rcases hfail with hnone | ⟨cs, ce, hsome, hnd, hdu, hunone⟩
    · rw [hnone]
      simp only [hnospace, hcd, Bool.false_eq_true, false_and, if_false]
    · rw [hsome]
      simp only [hnd, hdu, hunone, hnospace, hcd, Bool.false_eq_true, false_and,
        if_false, if_true]

/-- C1 witness: the amended fall-through rule applied at user "20th c.",
correct "19xx-20xx" (hyphen present, bound parse fails, no space). -/
theorem C1_parse_fallthrough_witness :
    check_date_answer "20th".toList "19xx-20xx".toList =
      decide ((4 : ℚ)/5 ≤ calculate_similarity (pyLower (pyStrip "20th".toList))
        (pyLower (pyStrip "19xx-20xx".toList))) :=
  C1_parse_fallthrough "20th".toList "19xx-20xx".toList (by decide)
    (Or.inl (by decide)) (by decide)

/-- C5 counterexample: `stringSimilarity` is not commutative —
`ratio("aba", "babba") = 3/4` but `ratio("babba", "aba") = 1/2`
(difflib's `find_longest_match` tie-breaking is direction-dependent). -/
theorem C5_counterexample :
    calculate_similarity "aba".toList "babba".toList ≠
      calculate_similarity "babba".toList "aba".toList := by
  have h1 : calculate_similarity "aba".toList "babba".toList = 3/4 := by
    show ratioQ (pyLower "aba".toList) (pyLower "babba".toList) = 3/4
    rw [show pyLower "aba".toList = "aba".toList from by decide,
      show pyLower "babba".toList = "babba".toList from by decide,
      ratioQ_eval (m := 3) (by decide) (by decide),
      show "aba".toList.length = 3 from rfl,
      show "babba".toList.length = 5 from rfl]
    norm_num
  have h2 : calculate_similarity "babba".toList "aba".toList = 1/2 := by
    show ratioQ (pyLower "babba".toList) (pyLower "aba".toList) = 1/2
    rw [show pyLower "babba".toList = "babba".toList from by decide,
      show pyLower "aba".toList = "aba".toList from by decide,
      ratioQ_eval (m := 2) (by decide) (by decide),
      show "babba".toList.length = 5 from rfl,
      show "aba".toList.length = 3 from rfl]
    norm_num
  rw [h1, h2]
  norm_num

/-- C5 (amended): `stringSimilarity(a, a) == 1.0` for every non-empty
string (it in fact holds for the empty string as well); commutativity
does not hold in general. -/
theorem C5_reflexive_maximal (s : List Char) (h : s ≠ []) :
    calculate_similarity s s = 1 :=
  calculate_similarity_self s

/-- C5 witness: reflexive maximality at the concrete string "aba". -/
theorem C5_reflexive_maximal_witness :
    calculate_similarity "aba".toList "aba".toList = 1 :=
  C5_reflexive_maximal "aba".toList (by decide)


/-- C4: for ByDate and ByFigureName questions the graded answer is correct
iff similarity reaches 0.6 or the keyword-match fraction reaches 0.7
against the event description / figure achievement, and the keyword
fraction over an empty keyword list is 0. -/
theorem C4_combined_grading :
    (∀ (user_answer : List Char) (e : EventFact),
      check_answer (.date e) user_answer = true ↔
        ((3 : ℚ)/5 ≤ calculate_similarity user_answer e.description ∨
          (7 : ℚ)/10 ≤ check_keywords user_answer (extract_keywords e.description))) ∧
    (∀ (user_answer : List Char) (f : FigureFact),
      check_answer (.figure f) user_answer = true ↔
        ((3 : ℚ)/5 ≤ calculate_similarity user_answer f.achievement ∨
          (7 : ℚ)/10 ≤ check_keywords user_answer (extract_keywords f.achievement))) ∧
    (∀ user_answer : List Char, check_keywords user_answer [] = 0) := by
  refine ⟨?_, ?_, ?_⟩
  · intro user_answer e
    simp [check_answer]
  · intro user_answer f
    simp [check_answer]
  · intro user_answer
    rfl

/-- Definitional unfolding of `extract_keywords`. -/
theorem extract_keywords_def (text : List Char) :
    extract_keywords text =
      (pySplitWS ((pyLower text).map
        (fun c => if punctChars.contains c then ' ' else c))).filter
        (fun w => decide (3 < w.length) && !stopWords.contains w) :=
  rfl

/-- Definitional unfolding of `extract_keywords_nostop`. -/
theorem extract_keywords_nostop_def (text : List Char) :
    extract_keywords_nostop text =
      (pySplitWS ((pyLower text).map
        (fun c => if punctChars.contains c then ' ' else c))).filter
        (fun w => decide (3 < w.length)) :=
  rfl

/-- C9: the stop-word filter of `_extract_keywords` is redundant — every
stop word has length at most 3 while only tokens longer than 3 characters
are kept, so extraction with and without the stop-word filter agree on
every input. -/
theorem C9_stopword_filter_redundant (text : List Char) :
    extract_keywords text = extract_keywords_nostop text := by
  rw [extract_keywords_def, extract_keywords_nostop_def]
  apply List.filter_congr
  intro w _
  by_cases h3 : 3 < w.length
  · have hle : ∀ x ∈ stopWords, x.length ≤ 3 := by decide
    have hnm : w ∉ stopWords := fun hmem => by
      have := hle w hmem
      omega
    simp [h3, hnm]
  · simp [h3]

/-- The stripped whitespace-separated parts of a lowercased name, as
computed inside `_calculate_name_similarity`. -/
def nameParts (s : List Char) : List (List Char) :=
  (pySplitWS (pyLower s)).map pyStrip

/-- The number of correct-name parts matched (similarity strictly above
0.8 with some user part), as counted by `_calculate_name_similarity`. -/
def nameMatchedCount (user_name correct_name : List Char) : Nat :=
  ((nameParts correct_name).filter (fun cp =>
    (nameParts user_name).any (fun up =>
      decide ((4 : ℚ)/5 < calculate_similarity up cp)))).length

/-- Definitional unfolding of `calculate_name_similarity` (the `let`s of
the definition zeta-reduced). -/
theorem calculate_name_similarity_def (user_name correct_name : List Char) :
    calculate_name_similarity user_name correct_name =
      (if pyLower user_name = pyLower correct_name then 1
      else if 0 < (nameParts correct_name).length then
        (nameMatchedCount user_name correct_name : ℚ) /
          ((nameParts correct_name).length : ℚ)
      else 0) :=
  rfl

/-- C6: `nameSimilarity` returns 1.0 on lowercase equality, otherwise the
fraction of correct-name parts matched by some user part with similarity
strictly above 0.8 (0 when the correct name has no parts); and
`nameSimilarity("Костюшко", "Тадеуш Костюшко") = 0.5`. -/
theorem C6_name_similarity :
    (∀ user_name correct_name : List Char,
      pyLower user_name = pyLower correct_name →
      calculate_name_similarity user_name correct_name = 1) ∧
    (∀ user_name correct_name : List Char,
      pyLower user_name ≠ pyLower correct_name →
      (nameParts correct_name).length = 0 →
      calculate_name_similarity user_name correct_name = 0) ∧
    (∀ user_name correct_name : List Char,
      pyLower user_name ≠ pyLower correct_name →
      0 < (nameParts correct_name).length →
      calculate_name_similarity user_name correct_name =
        (nameMatchedCount user_name correct_name : ℚ) /
          ((nameParts correct_name).length : ℚ)) ∧
    calculate_name_similarity "Костюшко".toList "Тадеуш Костюшко".toList = 1/2 := by
  refine ⟨?_, ?_, ?_, ?_⟩
  · intro u c h
    rw [calculate_name_similarity_def, if_pos h]
  · intro u c h hlen
    rw [calculate_name_similarity_def, if_neg h, if_neg (by omega)]
  · intro u c h hlen
    rw [calculate_name_similarity_def, if_neg h, if_pos hlen]
  · have hsim1 : calculate_similarity "костюшко".toList "тадеуш".toList = 2/7 := by
      show ratioQ (pyLower "костюшко".toList) (pyLower "тадеуш".toList) = 2/7
      rw [show pyLower "костюшко".toList = "костюшко".toList from by decide,
        show pyLower "тадеуш".toList = "тадеуш".toList from by decide,
        ratioQ_eval (m := 2) (by decide) (by decide),
        show "костюшко".toList.length = 8 from rfl,
        show "тадеуш".toList.length = 6 from rfl]
      norm_num
    have hd1 : decide ((4 : ℚ)/5 <
        calculate_similarity "костюшко".toList "тадеуш".toList) = false := by
      rw [hsim1]
      exact decide_eq_false (by norm_num)
    have hd2 : decide ((4 : ℚ)/5 <
        calculate_similarity "костюшко".toList "костюшко".toList) = true := by
      rw [calculate_similarity_self]
      exact decide_eq_true (by norm_num)
    have hmc : nameMatchedCount "Костюшко".toList "Тадеуш Костюшко".toList = 1 := by
      rw [nameMatchedCount,
        show nameParts "Тадеуш Костюшко".toList =
          ["тадеуш".toList, "костюшко".toList] from by decide,
        show nameParts "Костюшко".toList = ["костюшко".toList] from by decide]
      simp only [List.filter_cons, List.filter_nil, List.any_cons, List.any_nil,
        hd1, hd2, Bool.or_false, if_false, if_true]
      rfl
    rw [calculate_name_similarity_def, if_neg (by decide),
      if_pos (by rw [show nameParts "Тадеуш Костюшко".toList =
        ["тадеуш".toList, "костюшко".toList] from by decide]; decide),
      hmc,
      show (nameParts "Тадеуш Костюшко".toList).length = 2 from by decide]
    norm_num

/-- C6 witness: lowercase-equal names give similarity 1. -/
theorem C6_name_similarity_witness :
    calculate_name_similarity "Тадеуш Костюшко".toList
      "Тадеуш Костюшко".toList = 1 :=
  C6_name_similarity.1 "Тадеуш Костюшко".toList "Тадеуш Костюшко".toList rfl


/-- C2: on an empty fact pool the selection path of `start_date_test` /
`start_figure_test` reaches `random.choice([])`, which raises an
`IndexError`; the "no data in the database" message branch (`if not
event:`) sits after the choice and is dead code, so the no-data condition
is never surfaced.  On a non-empty pool selection always succeeds. -/
theorem C2_empty_pool_raises_index_error :
    (∀ (consumed : List Nat) (r : Nat),
      start_date_test_select [] consumed r = .error .indexError ∧
      start_figure_test_select [] consumed r = .error .indexError) ∧
    (∀ (α : Type) (getId : α → Nat) (pool : List α) (consumed : List Nat)
      (r : Nat), pool ≠ [] →
      ∃ x c', test_select getId pool consumed r = .ok (x, c')) := by
  constructor
  · intro consumed r
    exact ⟨rfl, rfl⟩
  · intro α getId pool consumed r hne
    match pool with
    | p :: ps =>
      by_cases he : ((p :: ps).filter (fun x => !consumed.contains (getId x))).isEmpty
      · exact ⟨(p :: ps).getD (r % (p :: ps).length) p,
          [] ++ [getId ((p :: ps).getD (r % (p :: ps).length) p)], by
            simp only [test_select]
            rw [if_pos he, if_pos he]
            rfl⟩
      · obtain ⟨a, as, hf⟩ : ∃ a as,
            (p :: ps).filter (fun x => !consumed.contains (getId x)) = a :: as := by
          match hfe : (p :: ps).filter (fun x => !consumed.contains (getId x)) with
          | [] => rw [hfe] at he; exact absurd rfl he
          | a :: as => exact ⟨a, as, rfl⟩
        exact ⟨(a :: as).getD (r % (a :: as).length) a,
          consumed ++ [getId ((a :: as).getD (r % (a :: as).length) a)], by
            simp only [test_select]
            rw [if_neg he, if_neg he, hf]
            rfl⟩

/-- C2 witness: a non-empty pool always yields a selected fact. -/
theorem C2_empty_pool_raises_index_error_witness :
    ∃ e c', test_select EventFact.id [⟨0, "d".toList, "x".toList⟩] [] 0 =
      .ok (e, c') :=
  C2_empty_pool_raises_index_error.2 EventFact EventFact.id
    [⟨0, "d".toList, "x".toList⟩] [] 0 (List.cons_ne_nil _ _)

/-- C8: the marathon question-type sequence has length exactly N for every
requested N, and whenever N ≥ 4 all four question types occur in it, for
every outcome of the random choices (the base permutation, the appended
random types, and the final shuffle). -/
theorem C8_marathon_type_sequence (base : List QType) (extra : Nat → QType)
    (n : Nat) (final : List QType) (hbase : base.Perm allQTypes)
    (hshuffle : final.Perm (build_marathon_questions base extra n)) :
    final.length = n ∧ (4 ≤ n → ∀ t : QType, t ∈ final) := by
  have hlb : base.length = 4 := by
    rw [hbase.length_eq]
    rfl
  constructor
  · rw [hshuffle.length_eq, build_marathon_questions, List.length_take,
      List.length_append, hlb, List.length_map, List.length_range]
    omega
  · intro h4 t
    have htb : t ∈ base := hbase.mem_iff.mpr (by cases t <;> simp [allQTypes])
    refine hshuffle.mem_iff.mpr ?_
    rw [build_marathon_questions, List.take_append_eq_append_take,
      List.take_of_length_le (by omega)]
    exact List.mem_append_left _ htb

/-- C8 witness: the guarantees at base = the identity permutation,
constant extra choices, N = 7, and the identity shuffle. -/
theorem C8_marathon_type_sequence_witness :
    (build_marathon_questions allQTypes (fun _ => QType.date) 7).length = 7 ∧
      (4 ≤ 7 → ∀ t : QType,
        t ∈ build_marathon_questions allQTypes (fun _ => QType.date) 7) :=
  C8_marathon_type_sequence allQTypes (fun _ => QType.date) 7
    (build_marathon_questions allQTypes (fun _ => QType.date) 7)
    (List.Perm.refl _) (List.Perm.refl _)


/-- Evaluation of `test_select` when no reset happens (the filtered
available list is non-empty). -/
theorem test_select_no_reset {α : Type} {getId : α → Nat} {pool : List α}
    {consumed : List Nat} {r : Nat} {a : α} {as : List α}
    (hf : pool.filter (fun x => !consumed.contains (getId x)) = a :: as) :
    test_select getId pool consumed r =
      .ok ((a :: as).getD (r % (a :: as).length) a,
        consumed ++ [getId ((a :: as).getD (r % (a :: as).length) a)]) := by
  simp only [test_select, hf, List.isEmpty_cons, Bool.false_eq_true, if_false]
  rfl

/-- The chosen element of `random.choice` is a member of the list. -/
theorem getD_head_mem {α : Type} (a : α) (as : List α) (n : Nat) :
    (a :: as).getD (n % (a :: as).length) a ∈ a :: as := by
  have hlt : n % (a :: as).length < (a :: as).length :=
    Nat.mod_lt _ (by simp)
  rw [List.getD_eq_getElem _ _ hlt]
  exact List.getElem_mem hlt

/-- An empty available list means every pool id is already consumed. -/
theorem filter_empty_all_consumed {α : Type} {getId : α → Nat}
    {pool : List α} {consumed : List Nat}
    (he : pool.filter (fun x => !consumed.contains (getId x)) = []) :
    ∀ x ∈ pool, getId x ∈ consumed := by
  intro x hx
  by_contra hn
  have hmem : x ∈ pool.filter (fun x => !consumed.contains (getId x)) :=
    List.mem_filter.mpr ⟨hx, by simpa using hn⟩
  rw [he] at hmem
  exact absurd hmem (List.not_mem_nil x)

/-- While fewer ids are consumed than the pool holds, the available list
is non-empty (no reset can happen). -/
theorem filter_ne_nil_of_lt {α : Type} (getId : α → Nat) (pool : List α)
    (consumed : List Nat) (hids : (pool.map getId).Nodup)
    (hnd : consumed.Nodup) (hsub : consumed ⊆ pool.map getId)
    (hlt : consumed.length < pool.length) :
    pool.filter (fun x => !consumed.contains (getId x)) ≠ [] := by
  intro he
  have hsub2 : pool.map getId ⊆ consumed := by
    intro y hy
    obtain ⟨x, hx, rfl⟩ := List.mem_map.mp hy
    exact filter_empty_all_consumed he x hx
  have hle := (List.subperm_of_subset hids hsub2).length_le
  rw [List.length_map] at hle
  omega

/-- Main invariant of the per-user question selector: starting from any
consistent consumed list with enough room, a run of selections appends
pairwise-distinct fresh ids. -/
theorem runSelect_spec {α : Type} (getId : α → Nat) (pool : List α)
    (hids : (pool.map getId).Nodup) :
    ∀ (rs : List Nat) (consumed : List Nat),
      consumed.Nodup → consumed ⊆ pool.map getId →
      rs.length + consumed.length ≤ pool.length →
      (consumed ++ (runSelect getId pool rs consumed).1).Nodup ∧
      (runSelect getId pool rs consumed).1.length = rs.length := by
  intro rs
  induction rs with
  | nil =>
    intro consumed h1 _ _
    exact ⟨by simpa [runSelect], rfl⟩
  | cons r rs ih =>
    intro consumed hnd hsub hlen
    have hlt : consumed.length < pool.length := by
      have := List.length_cons r rs
      omega
    have hfne := filter_ne_nil_of_lt getId pool consumed hids hnd hsub hlt
    obtain ⟨a, as, hf⟩ : ∃ a as,
        pool.filter (fun x => !consumed.contains (getId x)) = a :: as := by
      match hfe : pool.filter (fun x => !consumed.contains (getId x)) with
      | [] => exact absurd hfe hfne
      | a :: as => exact ⟨a, as, rfl⟩
    have hsel := test_select_no_reset (r := r) hf
    have hmemf : (a :: as).getD (r % (a :: as).length) a ∈
        pool.filter (fun x => !consumed.contains (getId x)) :=
      hf ▸ getD_head_mem a as r
    have hcp : (a :: as).getD (r % (a :: as).length) a ∈ pool :=
      (List.mem_filter.mp hmemf).1
    have hfresh : getId ((a :: as).getD (r % (a :: as).length) a) ∉ consumed := by
      have := (List.mem_filter.mp hmemf).2
      simpa using this
    have hidmem : getId ((a :: as).getD (r % (a :: as).length) a) ∈
        pool.map getId := List.mem_map_of_mem getId hcp
    have hstep : runSelect getId pool (r :: rs) consumed =
        (getId ((a :: as).getD (r % (a :: as).length) a) ::
          (runSelect getId pool rs
            (consumed ++ [getId ((a :: as).getD (r % (a :: as).length) a)])).1,
         (runSelect getId pool rs
            (consumed ++ [getId ((a :: as).getD (r % (a :: as).length) a)])).2) := by
      rw [runSelect, hsel]
    have hnd' : (consumed ++ [getId ((a :: as).getD (r % (a :: as).length) a)]).Nodup := by
      rw [List.nodup_append]
      refine ⟨hnd, List.nodup_singleton _, ?_⟩
      intro y hy hmem
      rcases List.mem_singleton.mp hmem with rfl
      exact hfresh hy
    have hsub' : consumed ++ [getId ((a :: as).getD (r % (a :: as).length) a)] ⊆
        pool.map getId := by
      intro y hy
      rcases List.mem_append.mp hy with h | h
      · exact hsub h
      · rcases List.mem_singleton.mp h with rfl
        exact hidmem
    have hlen' : rs.length +
        (consumed ++ [getId ((a :: as).getD (r % (a :: as).length) a)]).length ≤
        pool.length := by
      rw [List.length_append, List.length_singleton]
      have := List.length_cons r rs
      omega
    obtain ⟨ihnd, ihlen⟩ := ih _ hnd' hsub' hlen'
    rw [hstep]
    constructor
    · have hre : consumed ++ getId ((a :: as).getD (r % (a :: as).length) a) ::
          (runSelect getId pool rs
            (consumed ++ [getId ((a :: as).getD (r % (a :: as).length) a)])).1 =
          (consumed ++ [getId ((a :: as).getD (r % (a :: as).length) a)]) ++
          (runSelect getId pool rs
            (consumed ++ [getId ((a :: as).getD (r % (a :: as).length) a)])).1 := by
        simp
      rw [hre]
      exact ihnd
    · show (getId ((a :: as).getD (r % (a :: as).length) a) ::
          (runSelect getId pool rs
            (consumed ++ [getId ((a :: as).getD (r % (a :: as).length) a)])).1).length =
        (r :: rs).length
      rw [List.length_cons, ihlen, List.length_cons]

/-- C7: for a pool of K facts with distinct ids, K consecutive selections
from a fresh consumed list yield K pairwise-distinct ids; the consumed
list stays within K entries; and a selection repeats an id only when a
reset (available list empty) happened in that step. -/
theorem C7_selector_no_repeat (α : Type) (getId : α → Nat) (pool : List α)
    (hids : (pool.map getId).Nodup) :
    (∀ rs : List Nat, rs.length = pool.length →
      (runSelect getId pool rs []).1.Nodup ∧
      (runSelect getId pool rs []).1.length = pool.length) ∧
    (∀ (consumed : List Nat) (r : Nat) (x : α) (c' : List Nat),
      consumed.Nodup → consumed ⊆ pool.map getId →
      test_select getId pool consumed r = .ok (x, c') →
      c'.length ≤ pool.length) ∧
    (∀ (consumed : List Nat) (r : Nat) (x : α) (c' : List Nat),
      pool.filter (fun y => !consumed.contains (getId y)) ≠ [] →
      test_select getId pool consumed r = .ok (x, c') →
      getId x ∉ consumed) := by
  refine ⟨?_, ?_, ?_⟩
  · intro rs hrs
    have hsp := runSelect_spec getId pool hids rs []
      List.nodup_nil (by intro y hy; exact absurd hy (List.not_mem_nil y))
      (by simpa using Nat.le_of_eq hrs)
    rw [hrs] at hsp
    simpa using hsp
  · intro consumed r x c' hnd hsub hok
    match hfe : pool.filter (fun y => !consumed.contains (getId y)) with
    | [] =>
      match pool, hfe with
      | [], _ => exact absurd hok (by simp [test_select])
      | p :: ps, hfe =>
        have hsel : test_select getId (p :: ps) consumed r =
            .ok ((p :: ps).getD (r % (p :: ps).length) p,
              [] ++ [getId ((p :: ps).getD (r % (p :: ps).length) p)]) := by
          have he : ((p :: ps).filter
              (fun y => !consumed.contains (getId y))).isEmpty = true := by
            rw [hfe]; rfl
          simp only [test_select]
          rw [if_pos he, if_pos he]
          rfl
        have hcc := hsel.symm.trans hok
        simp only [Except.ok.injEq, Prod.mk.injEq] at hcc
        rw [← hcc.2]
        simp
    | a :: as =>
      have hsel := test_select_no_reset (r := r) hfe
      have hcc := hsel.symm.trans hok
      simp only [Except.ok.injEq, Prod.mk.injEq] at hcc
      have hmemf : (a :: as).getD (r % (a :: as).length) a ∈
          pool.filter (fun y => !consumed.contains (getId y)) :=
        hfe ▸ getD_head_mem a as r
      have hfresh : getId ((a :: as).getD (r % (a :: as).length) a) ∉ consumed := by
        have := (List.mem_filter.mp hmemf).2
        simpa using this
      have hcp : (a :: as).getD (r % (a :: as).length) a ∈ pool :=
        (List.mem_filter.mp hmemf).1
      have hnd' : (consumed ++
          [getId ((a :: as).getD (r % (a :: as).length) a)]).Nodup := by
        rw [List.nodup_append]
        refine ⟨hnd, List.nodup_singleton _, ?_⟩
        intro y hy hmem
        rcases List.mem_singleton.mp hmem with rfl
        exact hfresh hy
      have hsub' : consumed ++
          [getId ((a :: as).getD (r % (a :: as).length) a)] ⊆ pool.map getId := by
        intro y hy
        rcases List.mem_append.mp hy with h | h
        · exact hsub h
        · rcases List.mem_singleton.mp h with rfl
          exact List.mem_map_of_mem getId hcp
      have hle := (List.subperm_of_subset hnd' hsub').length_le
      rw [List.length_map] at hle
      rw [← hcc.2]
      exact hle
  · intro consumed r x c' hfne hok
    match hfe : pool.filter (fun y => !consumed.contains (getId y)) with
    | [] => exact absurd hfe hfne
    | a :: as =>
      have hsel := test_select_no_reset (r := r) hfe
      have hcc := hsel.symm.trans hok
      simp only [Except.ok.injEq, Prod.mk.injEq] at hcc
      have hmemf : (a :: as).getD (r % (a :: as).length) a ∈
          pool.filter (fun y => !consumed.contains (getId y)) :=
        hfe ▸ getD_head_mem a as r
      have hfresh : getId ((a :: as).getD (r % (a :: as).length) a) ∉ consumed := by
        have := (List.mem_filter.mp hmemf).2
        simpa using this
      rw [← hcc.1]
      exact hfresh

/-- C7 witness: the invariants at a concrete two-fact pool. -/
theorem C7_selector_no_repeat_witness :
    (runSelect EventFact.id [⟨0, "a".toList, "b".toList⟩,
      ⟨1, "c".toList, "d".toList⟩] [0, 1] []).1.Nodup ∧
    (runSelect EventFact.id [⟨0, "a".toList, "b".toList⟩,
      ⟨1, "c".toList, "d".toList⟩] [0, 1] []).1.length = 2 :=
  (C7_selector_no_repeat EventFact EventFact.id
    [⟨0, "a".toList, "b".toList⟩, ⟨1, "c".toList, "d".toList⟩]
    (by decide)).1 [0, 1] rfl


/-! ### C10 support: sums and histories of the statistics state -/

/-- Sum of the per-test-type `total` counters. -/
def sumTot (l : List (List Char × Nat × Nat)) : Nat :=
  (l.map (fun e => e.2.1)).sum

/-- Sum of the per-test-type `correct` counters. -/
def sumCor (l : List (List Char × Nat × Nat)) : Nat :=
  (l.map (fun e => e.2.2)).sum

/-- The rolling history stored for a question (empty when the question has
never been attempted). -/
def histOf (s : UserStats) (q : List Char) : List (Nat × Bool) :=
  match dictGet s.questions q with
  | some st => st.history
  | none => []

/-- All results recorded for a question, in order. -/
def entriesFor (q : List Char) (entries : List ResultEntry) : List (Nat × Bool) :=
  (entries.filter (fun e => decide (e.question = q))).map
    (fun e => (e.now, e.is_correct))

theorem sumTot_bumpType (l : List (List Char × Nat × Nat)) (t : List Char)
    (c : Bool) : sumTot (bumpType l t c) = sumTot l + 1 := by
  induction l with
  | nil => rfl
  | cons e rest ih =>
    obtain ⟨k, tot, cor⟩ := e
    rw [bumpType]
    by_cases hk : k = t
    · rw [if_pos hk]
      simp only [sumTot, List.map_cons, List.sum_cons]
      omega
    · rw [if_neg hk]
      simp only [sumTot, List.map_cons, List.sum_cons] at ih ⊢
      omega

theorem sumCor_bumpType (l : List (List Char × Nat × Nat)) (t : List Char)
    (c : Bool) :
    sumCor (bumpType l t c) = sumCor l + (if c then 1 else 0) := by
  induction l with
  | nil =>
    cases c <;> rfl
  | cons e rest ih =>
    obtain ⟨k, tot, cor⟩ := e
    rw [bumpType]
    by_cases hk : k = t
    · rw [if_pos hk]
      cases c <;> simp [sumCor] <;> omega
    · rw [if_neg hk]
      simp only [sumCor, List.map_cons, List.sum_cons] at ih ⊢
      omega

theorem dictGet_bumpQuestion (l : List (List Char × QStats))
    (t q k : List Char) (c : Bool) (now : Nat) :
    dictGet (bumpQuestion t c now l q) k =
      (if k = q then
        some (bumpQStats c now ((dictGet l q).getD ⟨t, 0, 0, 0, []⟩))
      else dictGet l k) := by
  induction l with
  | nil =>
    by_cases hk : k = q
    · rw [if_pos hk, hk]
      simp [bumpQuestion, dictGet]
    · rw [if_neg hk]
      simp only [bumpQuestion, dictGet]
      rw [if_neg (fun he => hk he.symm)]
  | cons e rest ih =>
    obtain ⟨k1, v⟩ := e
    rw [bumpQuestion]
    by_cases h1 : k1 = q
    · rw [if_pos h1]
      by_cases hk : k = q
      · rw [if_pos hk]
        simp only [dictGet]
        rw [if_pos (h1.trans hk.symm), if_pos h1]
        simp
      · rw [if_neg hk]
        simp only [dictGet]
        rw [if_neg (fun he => hk (he.symm.trans h1)),
          if_neg (fun he => hk (he.symm.trans h1))]
    · rw [if_neg h1]
      by_cases hk : k = q
      · rw [if_pos hk]
        simp only [dictGet]
        rw [if_neg (fun he => h1 (he.trans hk)), ih, if_pos hk,
          if_neg (fun he => h1 he)]
      · rw [if_neg hk]
        simp only [dictGet]
        by_cases h2 : k1 = k
        · rw [if_pos h2, if_pos h2]
        · rw [if_neg h2, if_neg h2, ih, if_neg hk]

theorem truncHistory_eq_drop (h : List (Nat × Bool)) :
    truncHistory h = h.drop (h.length - 10) := by
  rw [truncHistory]
  by_cases h10 : 10 < h.length
  · rw [if_pos h10]
  · rw [if_neg h10, Nat.sub_eq_zero_of_le (by omega), List.drop_zero]

theorem truncHistory_le_ten {h : List (Nat × Bool)} (_hh : h.length ≤ 10)
    (e : Nat × Bool) : (truncHistory (h ++ [e])).length ≤ 10 := by
  rw [truncHistory_eq_drop, List.length_drop]
  omega

/-- Appending one entry to a last-10 window and re-truncating gives the
last-10 window of the extended list. -/
theorem lastTen_snoc (E : List (Nat × Bool)) (e : Nat × Bool) :
    truncHistory (E.drop (E.length - 10) ++ [e]) =
      (E ++ [e]).drop ((E ++ [e]).length - 10) := by
  rw [truncHistory_eq_drop]
  by_cases hE : E.length ≤ 9
  · rw [show E.length - 10 = 0 from by omega, List.drop_zero,
      show (E ++ [e]).length - 10 = 0 from by
        rw [List.length_append, List.length_singleton]; omega,
      List.drop_zero]
  · have hD : (E.drop (E.length - 10)).length = 10 := by
      rw [List.length_drop]
      omega
    rw [show (E.drop (E.length - 10) ++ [e]).length - 10 = 1 from by
        rw [List.length_append, hD, List.length_singleton],
      show (E ++ [e]).length - 10 = E.length - 9 from by
        rw [List.length_append, List.length_singleton]; omega,
      List.drop_append_eq_append_drop, List.drop_append_eq_append_drop,
      List.drop_drop,
      show E.length - 10 + 1 = E.length - 9 from by omega,
      show 1 - (E.drop (E.length - 10)).length = 0 from by rw [hD],
      show E.length - 9 - E.length = 0 from by omega]

theorem entriesFor_snoc (q : List Char) (es : List ResultEntry)
    (e : ResultEntry) :
    entriesFor q (es ++ [e]) =
      entriesFor q es ++
        (if e.question = q then [(e.now, e.is_correct)] else []) := by
  rw [entriesFor, entriesFor, List.filter_append, List.map_append]
  congr 1
  by_cases hq : e.question = q
  · simp [List.filter, hq]
  · simp [List.filter, hq]

theorem histOf_add (s : UserStats) (t q0 : List Char) (c : Bool) (now : Nat)
    (q : List Char) :
    histOf (add_test_result s t q0 c now) q =
      (if q = q0 then truncHistory (histOf s q0 ++ [(now, c)])
      else histOf s q) := by
  show (match dictGet (bumpQuestion t c now s.questions q0) q with
    | some st => st.history
    | none => []) = _
  rw [dictGet_bumpQuestion]
  by_cases hq : q = q0
  · rw [if_pos hq, if_pos hq]
    show (bumpQStats c now ((dictGet s.questions q0).getD ⟨t, 0, 0, 0, []⟩)).history =
      truncHistory (histOf s q0 ++ [(now, c)])
    cases hd : dictGet s.questions q0 with
    | some st =>
      rw [histOf, hd]
      rfl
    | none =>
      rw [histOf, hd]
      rfl
  · rw [if_neg hq, if_neg hq]
    rfl

/-- C10: after any sequence of recorded results, the user totals equal the
sums of the per-type counters, every question has `correct ≤ attempts` and
at most 10 history entries, and each question's history is exactly the
last (at most) 10 recorded results for that question, in order. -/
theorem C10_stats_invariants (entries : List ResultEntry) :
    (applyResults entries).tests_total = sumTot (applyResults entries).test_types ∧
    (applyResults entries).tests_correct = sumCor (applyResults entries).test_types ∧
    (∀ q st, dictGet (applyResults entries).questions q = some st →
      st.correct ≤ st.attempts ∧ st.history.length ≤ 10) ∧
    (∀ q, histOf (applyResults entries) q =
      (entriesFor q entries).drop ((entriesFor q entries).length - 10)) := by
  induction entries using List.reverseRecOn with
  | nil =>
    refine ⟨rfl, rfl, ?_, ?_⟩
    · intro q st h
      exact absurd h (by simp [applyResults, freshUserStats, dictGet])
    · intro q
      rfl
  | append_singleton es e ih =>
    obtain ⟨ih1, ih2, ih3, ih4⟩ := ih
    have happ : applyResults (es ++ [e]) =
        add_test_result (applyResults es) e.test_type e.question
          e.is_correct e.now := by
      rw [applyResults, applyResults, List.foldl_append]
      rfl
    refine ⟨?_, ?_, ?_, ?_⟩
    · rw [happ]
      show (applyResults es).tests_total + 1 =
        sumTot (bumpType (applyResults es).test_types e.test_type e.is_correct)
      rw [sumTot_bumpType, ih1]
    · rw [happ]
      show (if e.is_correct then (applyResults es).tests_correct + 1
          else (applyResults es).tests_correct) =
        sumCor (bumpType (applyResults es).test_types e.test_type e.is_correct)
      rw [sumCor_bumpType, ih2]
      cases e.is_correct <;> simp
    · intro q st h
      rw [happ] at h
      have h' : dictGet (bumpQuestion e.test_type e.is_correct e.now
          (applyResults es).questions e.question) q = some st := h
      rw [dictGet_bumpQuestion] at h'
      by_cases hq : q = e.question
      · rw [if_pos hq] at h'
        have hst : st = bumpQStats e.is_correct e.now
            ((dictGet (applyResults es).questions e.question).getD
              ⟨e.test_type, 0, 0, 0, []⟩) := (Option.some.inj h').symm
        have hprev : ((dictGet (applyResults es).questions e.question).getD
              ⟨e.test_type, 0, 0, 0, []⟩).correct ≤
            ((dictGet (applyResults es).questions e.question).getD
              ⟨e.test_type, 0, 0, 0, []⟩).attempts ∧
            ((dictGet (applyResults es).questions e.question).getD
              ⟨e.test_type, 0, 0, 0, []⟩).history.length ≤ 10 := by
          cases hd : dictGet (applyResults es).questions e.question with
          | some st' =>
            rw [Option.getD_some]
            exact ih3 e.question st' hd
          | none =>
            rw [Option.getD_none]
            exact ⟨Nat.le_refl 0, by simp⟩
        rw [hst]
        constructor
        · show (if e.is_correct then _ + 1 else _) ≤ _ + 1
          cases e.is_correct with
          | true =>
            rw [if_pos rfl]
            exact Nat.add_le_add_right hprev.1 1
          | false =>
            rw [if_neg (by simp)]
            exact Nat.le_succ_of_le hprev.1
        · exact truncHistory_le_ten hprev.2 _
      · rw [if_neg hq] at h'
        exact ih3 q st h'
    · intro q
      rw [happ, histOf_add]
      by_cases hq : q = e.question
      · rw [if_pos hq, hq, ih4 e.question, entriesFor_snoc,
          if_pos rfl, lastTen_snoc]
      · rw [if_neg hq, ih4 q, entriesFor_snoc,
          if_neg (fun he => hq he.symm), List.append_nil]

end LTBot
